import Mathlib

/-!
# Verification of the FreeAge client connection / time-synchronization code

Shallow embedding of `src/FreeAge/client/server_connection.hpp` and
`src/FreeAge/client/unit.cpp`.  C++ `double` values are idealized as `ℚ`
(exact arithmetic); machine behaviour that this idealization cannot express
(IEEE `0.0/0.0 = NaN`) is tracked explicitly through dedicated definitions.
Components whose implementation is not part of the excerpt (the framer,
the ping-response handler, the ping scheduler, the sample-window push) are
modelled from the specification text and marked as such.
-/

namespace FreeAge

/-- State of the time-synchronization part of `ServerConnection`
(fields `lastTimeOffsets` and `lastPings` of the C++ class,
`std::vector<double>` idealized as `List ℚ`). -/
structure ConnState where
  lastTimeOffsets : List ℚ
  lastPings : List ℚ

/-- The connection state right after connecting, before any ping round
trip has completed: both sample vectors are empty. -/
def emptyConnState : ConnState := ⟨[], []⟩

/-- `ServerConnection::EstimateCurrentPingAndOffset`
(server_connection.hpp lines 31-44): sums `lastTimeOffsets[i]` and
`lastPings[i]` for `i < lastTimeOffsets.size()` and divides the sums by
`lastTimeOffsets.size()` resp. `lastPings.size()`.  The loop bound of the
C++ code indexes both vectors up to `lastTimeOffsets.size()`, hence the
`take`.  Returns `(filteredPing, filteredOffset)`.  Note `ℚ` division by
zero yields `0` here, whereas the C++ `0.0/0.0` yields IEEE NaN; the
divisors are exposed by `estimateOffsetDivisor` / `estimatePingDivisor`. -/
def EstimateCurrentPingAndOffset (s : ConnState) : ℚ × ℚ :=
  let offsetSum := s.lastTimeOffsets.sum
  let pingSum := (s.lastPings.take s.lastTimeOffsets.length).sum
  (pingSum / s.lastPings.length, offsetSum / s.lastTimeOffsets.length)

/-- The divisor of the `*filteredOffset = offsetSum / lastTimeOffsets.size()`
division at server_connection.hpp line 42. -/
def estimateOffsetDivisor (s : ConnState) : ℕ := s.lastTimeOffsets.length

/-- The divisor of the `*filteredPing = pingSum / lastPings.size()`
division at server_connection.hpp line 43. -/
def estimatePingDivisor (s : ConnState) : ℕ := s.lastPings.length

/-- The constant `kSafetyMargin = 0.010` (10 milliseconds) of
`GetDisplayedServerTime` (server_connection.hpp line 58). -/
def kSafetyMargin : ℚ := 1/100

/-- `ServerConnection::GetDisplayedServerTime`
(server_connection.hpp lines 47-60), parametrized by the elapsed client
time `SecondsDuration(Clock::now() - connectionStartTime).count()`. -/
def GetDisplayedServerTime (s : ConnState) (clientTimeSeconds : ℚ) : ℚ :=
  let est := EstimateCurrentPingAndOffset s
  let filteredPing := est.1
  let filteredOffset := est.2
  let estimatedServerTimeNow := clientTimeSeconds + filteredOffset
  estimatedServerTimeNow - (1/2) * filteredPing - kSafetyMargin

/-- Arithmetic mean of a list of rationals (mean of the empty list is `0`
under the `ℚ` division-by-zero convention). -/
def listMean (l : List ℚ) : ℚ := l.sum / l.length

/-- The concrete sample window of the spec's scenario: offsets
2.000 s, 2.010 s, 1.995 s and round-trip times 40 ms, 60 ms, 50 ms
(stored in seconds, as `GetDisplayedServerTime` consumes them). -/
def scenarioState : ConnState :=
  ⟨[2, 201/100, 399/200], [1/25, 3/50, 1/20]⟩

/-- Observable side effects of `ServerConnection::Write`. -/
inductive WriteEffect where
  | socketWrite (bytes : ℕ)
  | logError
  | socketFlush
deriving DecidableEq

/-- `ServerConnection::Write` (server_connection.hpp lines 62-75), as the
sequence of effects it performs, parametrized by the number of bytes the
socket accepts (the return value of `socket.write(message)`, which may be
`-1` on error, hence `ℤ`): one `socket.write` call, a `LOG(ERROR)` iff the
accepted count differs from the message size, then `socket.flush()`;
the function then returns normally (it is total and throws nothing). -/
def Write (messageSize : ℕ) (writeResult : ℤ) : List WriteEffect :=
  [WriteEffect.socketWrite messageSize] ++
    (if writeResult ≠ (messageSize : ℤ) then [WriteEffect.logError] else []) ++
    [WriteEffect.socketFlush]

/-- Modelled from the spec: the sample-window push performed when a ping
round trip completes (the body of `HandlePingResponseMessage` is not part
of the excerpt).  §4.3: "Maintains the bounded sample window; on each new
sample, evicts the oldest if at capacity, appends the new pair" —
ring-buffer semantics with configurable capacity `cap`. -/
def pushSample (cap : ℕ) (w : List ℚ) (x : ℚ) : List ℚ :=
  if w.length < cap then w ++ [x] else w.drop 1 ++ [x]

/-- The sample window obtained by inserting the samples `xs`, oldest
first, into an initially empty window of capacity `cap`. -/
def windowAfter (cap : ℕ) (xs : List ℚ) : List ℚ :=
  xs.foldl (pushSample cap) []

/-- Modelled from the spec: processing of a ping response carrying
sequence number `k` at local receive time `receiveTime` (the body of
`HandlePingResponseMessage` is not part of the excerpt).  §4.2: "locate
the matching outstanding record; if found, compute round-trip time =
receive time − send time, discard all outstanding records with sequence
number ≤ the matched one".  `sent` is the `sentPings` vector of
`(u64 sequence number, send TimePoint)` pairs; returns the remaining
outstanding records and the round-trip time of the matched record
(`none` when no record matches). -/
def HandlePingResponse (sent : List (ℕ × ℚ)) (k : ℕ) (receiveTime : ℚ) :
    List (ℕ × ℚ) × Option ℚ :=
  match sent.find? (fun p => p.1 == k) with
  | none => (sent, none)
  | some p => (sent.filter (fun q => k < q.1), some (receiveTime - p.2))

/-- State of the ping scheduler: the `connectionToServerLost` flag and the
`lastPingResponseTime` reference instant (seconds). -/
structure SchedState where
  connectionToServerLost : Bool
  lastPingResponseTime : ℚ

/-- Modelled from the spec: one timer tick of `PingAndCheckConnection`
(its body is not part of the excerpt), restricted to the liveness check.
§4.2: "If no response has been received for longer than a timeout
threshold since `lastPingResponseTime`, set `connectionToServerLost =
true` and emit a 'connection lost' event exactly once (no repeated
emission on subsequent ticks)."  Returns the new state and whether the
`ConnectionLost` event was emitted on this tick. -/
def pingTick (timeout : ℚ) (s : SchedState) (now : ℚ) : SchedState × Bool :=
  if s.connectionToServerLost = false ∧ now - s.lastPingResponseTime > timeout
  then ({ s with connectionToServerLost := true }, true)
  else (s, false)

/-- Runs the ticks at the instants `ticks` in order (no ping response
arriving in between, so `lastPingResponseTime` stays fixed); returns the
final state and the total number of `ConnectionLost` emissions. -/
def runTicks (timeout : ℚ) (s : SchedState) (ticks : List ℚ) :
    SchedState × ℕ :=
  match ticks with
  | [] => (s, 0)
  | t :: rest =>
    let step := pingTick timeout s t
    let tail := runTicks timeout step.1 rest
    (tail.1, (if step.2 then 1 else 0) + tail.2)

/-- A framed application message: a type tag and a payload. -/
structure Msg where
  msgType : ℕ
  payload : List ℕ
deriving DecidableEq

/-- The event raised by the framer for one fully parsed message:
`NewMessage(buffer, msgType, msgLength)`. -/
structure MsgEvent where
  msgType : ℕ
  msgLength : ℕ
  payload : List ℕ
deriving DecidableEq

/-- A message is wire-valid when its tag and payload length fit the
fixed-width 16-bit header fields. -/
def ValidMsg (m : Msg) : Prop :=
  m.msgType < 65536 ∧ m.payload.length < 65536

/-- Wire encoding of one message:
`[message-type tag][payload length][payload bytes]` with a 4-byte header
(16-bit tag, 16-bit length, big-endian), per the spec's framing contract
and its 9-byte scenario (type+length in the first 4 bytes). -/
def encodeMsg (m : Msg) : List ℕ :=
  [m.msgType / 256, m.msgType % 256,
   m.payload.length / 256, m.payload.length % 256] ++ m.payload

/-- Wire encoding of a sequence of messages, concatenated in order. -/
def encodeMsgs : List Msg → List ℕ
  | [] => []
  | m :: ms => encodeMsg m ++ encodeMsgs ms

/-- The event that a correctly framed message must produce. -/
def toEvent (m : Msg) : MsgEvent :=
  ⟨m.msgType, m.payload.length, m.payload⟩

/-- Modelled from the spec: one extraction attempt of `TryParseMessages`
(its body is not part of the excerpt; only the slot is declared at
server_connection.hpp line 82).  §4.1: "If the buffer holds fewer bytes
than a header, or fewer than header-declared length, parsing stops and
waits for more data; on successful extraction the consumed bytes are
removed from the front of the buffer and one message-available event is
raised with the message type, length, and payload." -/
def stepParse (buf : List ℕ) : Option (MsgEvent × List ℕ) :=
  match buf with
  | b0 :: b1 :: b2 :: b3 :: rest =>
    let len := b2 * 256 + b3
    if rest.length < len then none
    else some (⟨b0 * 256 + b1, len, rest.take len⟩, rest.drop len)
  | _ => none

/-- Modelled from the spec: the draining loop of `TryParseMessages` —
"repeatedly attempts to extract one full message from the front of the
buffer ... loops until no full message remains".  Returns the raised
events in order and the remaining (unparsed) buffer.  A successful
extraction consumes at least the 4 header bytes, so the remainder is
strictly shorter and the loop terminates. -/
def drainBuffer (buf : List ℕ) : List MsgEvent × List ℕ :=
  match h : stepParse buf with
  | none => ([], buf)
  | some er =>
    let d := drainBuffer er.2
    (er.1 :: d.1, d.2)
termination_by buf.length
decreasing_by
  rcases buf with _ | ⟨b0, _ | ⟨b1, _ | ⟨b2, _ | ⟨b3, rest⟩⟩⟩⟩ <;>
    simp only [stepParse] at h <;>
    try exact Option.noConfusion h
  by_cases hlen : rest.length < b2 * 256 + b3
  · rw [if_pos hlen] at h
    exact Option.noConfusion h
  · rw [if_neg hlen] at h
    cases h
    simp only [List.length_drop, List.length_cons]
    omega

/-- Feeding a sequence of transport chunks: each arriving chunk is
appended to the unparsed buffer and `TryParseMessages` is triggered
(the readable-data notification path of the spec). -/
def feedChunks (chunks : List (List ℕ)) (buf : List ℕ) :
    List MsgEvent × List ℕ :=
  match chunks with
  | [] => ([], buf)
  | c :: cs =>
    let d := drainBuffer (buf ++ c)
    let t := feedChunks cs d.2
    (d.1 ++ t.1, t.2)

/-- Truncation toward zero: the semantics of C++ `static_cast<int>`
applied to a floating-point value (unit.cpp line 176). -/
def truncToInt (q : ℚ) : ℤ := if q < 0 then -⌊-q⌋ else ⌊q⌋

/-- The local `float framesPerSecond = 30.f` of `ClientUnit::Render`
(unit.cpp line 167). -/
def framesPerSecond : ℚ := 30

/-- The frame computed at the top of the animation-advance loop of
`ClientUnit::Render` (unit.cpp line 176):
`std::max(0, static_cast<int>(framesPerSecond * (serverTime - lastAnimationStartTime) + 0.5f))`. -/
def animFrame (serverTime last : ℚ) : ℤ :=
  max 0 (truncToInt (framesPerSecond * (serverTime - last) + 1/2))

/-- The update of `lastAnimationStartTime` when a new animation starts
(unit.cpp line 182):
`std::min(serverTime, lastAnimationStartTime + framesPerDirection / framesPerSecond)`. -/
def animAdvance (framesPerDirection : ℕ) (serverTime last : ℚ) : ℚ :=
  min serverTime (last + framesPerDirection / framesPerSecond)

/-- The `while (true)` animation-advance loop of `ClientUnit::Render`
(unit.cpp lines 175-189), with an explicit fuel bound: `none` means the
loop has not terminated within `fuel` iterations.  The random choice of
`currentAnimationVariant` inside the loop (lines 183-188) is omitted
from the loop state: it feeds into neither `frame` nor
`lastAnimationStartTime` nor `framesPerDirection` (the sprite was fixed
before the loop at lines 160-161), so it cannot affect the loop guard. -/
def animLoop (fuel : ℕ) (framesPerDirection : ℕ) (serverTime last : ℚ) :
    Option (ℚ × ℤ) :=
  match fuel with
  | 0 => none
  | fuel + 1 =>
    let frame := animFrame serverTime last
    if frame < (framesPerDirection : ℤ) then some (last, frame)
    else animLoop fuel framesPerDirection serverTime
      (animAdvance framesPerDirection serverTime last)

/-! ## Theorems -/

/-- C1, counterexample: with an empty sample window both divisions of
`EstimateCurrentPingAndOffset` are performed with divisor `0`
(`offsetSum / lastTimeOffsets.size()` and `pingSum / lastPings.size()`
with `size() = 0`, i.e. IEEE `0.0/0.0 = NaN` in the C++ code), so the
estimator does divide by zero and reports no "no estimate available"
signal, contrary to the claim. -/
theorem estimator_empty_window_divides_by_zero :
    estimateOffsetDivisor emptyConnState = 0 ∧
    estimatePingDivisor emptyConnState = 0 ∧
    EstimateCurrentPingAndOffset emptyConnState = (0, 0) := by
  refine ⟨rfl, rfl, ?_⟩
  simp [EstimateCurrentPingAndOffset, emptyConnState]

/-- C1, amended: `EstimateCurrentPingAndOffset` is a total function (no
crash), but on an empty window it divides by zero: the divisor of the
offset division is `0` exactly when `lastTimeOffsets` is empty, and the
divisor of the ping division is `0` exactly when `lastPings` is empty.
No "no estimate available" report exists; guarding is left to callers. -/
theorem estimator_division_by_zero_iff_empty :
    ∀ s : ConnState,
      (estimateOffsetDivisor s = 0 ↔ s.lastTimeOffsets = []) ∧
      (estimatePingDivisor s = 0 ↔ s.lastPings = []) := by
  intro s
  constructor
  · exact List.length_eq_zero
  · exact List.length_eq_zero

/-- C2: for every state whose sample window is non-empty (and whose two
sample vectors have equal length, the documented invariant),
`GetDisplayedServerTime` returns
`localElapsedSeconds + filteredOffset − 0.5·filteredPing − kSafetyMargin`
with `kSafetyMargin = 10 ms`, the filtered values being the arithmetic
means of the windows; and in the spec's scenario (ping samples
40/60/50 ms, offsets 2.000/2.010/1.995 s, local elapsed 10 s) it returns
`359/30 ≈ 11.9667 s`. -/
theorem displayed_server_time_formula :
    (∀ (s : ConnState) (t : ℚ),
      s.lastPings.length = s.lastTimeOffsets.length →
      s.lastTimeOffsets ≠ [] →
      GetDisplayedServerTime s t =
        t + listMean s.lastTimeOffsets - (1/2) * listMean s.lastPings
          - kSafetyMargin) ∧
    GetDisplayedServerTime scenarioState 10 = 359/30 ∧
    |(359 : ℚ)/30 - 119667/10000| < 1/10000 := by
  refine ⟨?_, ?_, ?_⟩
  · intro s t hlen _hne
    simp only [GetDisplayedServerTime, EstimateCurrentPingAndOffset, listMean]
    rw [← hlen, List.take_length, hlen]
  · norm_num [GetDisplayedServerTime, EstimateCurrentPingAndOffset,
      scenarioState, kSafetyMargin]
  · rw [abs_lt]
    norm_num

/-- C2, witness: the formula instantiated at the scenario state and local
elapsed time 10 s. -/
theorem displayed_server_time_formula_witness :
    GetDisplayedServerTime scenarioState 10 =
      10 + listMean scenarioState.lastTimeOffsets
        - (1/2) * listMean scenarioState.lastPings - kSafetyMargin :=
  displayed_server_time_formula.1 scenarioState 10 rfl (by decide)

/-- C3: for every non-empty sample window with the documented equal-length
invariant, `EstimateCurrentPingAndOffset` returns exactly the arithmetic
mean of `lastPings` and the arithmetic mean of `lastTimeOffsets` — a
simple average with no outlier rejection. -/
theorem estimator_returns_arithmetic_means :
    ∀ s : ConnState,
      s.lastPings.length = s.lastTimeOffsets.length →
      s.lastTimeOffsets ≠ [] →
      EstimateCurrentPingAndOffset s =
        (listMean s.lastPings, listMean s.lastTimeOffsets) := by
  intro s hlen _hne
  simp only [EstimateCurrentPingAndOffset, listMean]
  rw [← hlen, List.take_length]

/-- C3, witness: the mean property instantiated at the scenario window. -/
theorem estimator_returns_arithmetic_means_witness :
    EstimateCurrentPingAndOffset scenarioState =
      (listMean scenarioState.lastPings,
       listMean scenarioState.lastTimeOffsets) :=
  estimator_returns_arithmetic_means scenarioState rfl (by decide)

/-- C8: with a fixed sample window, `GetDisplayedServerTime` is
monotonically non-decreasing in the local elapsed time. -/
theorem displayed_server_time_monotone :
    ∀ (s : ConnState) (t1 t2 : ℚ), t1 ≤ t2 →
      GetDisplayedServerTime s t1 ≤ GetDisplayedServerTime s t2 := by
  intro s t1 t2 h
  simp only [GetDisplayedServerTime]
  linarith

/-- C8, witness: monotonicity instantiated at the scenario state between
local elapsed times 0 and 1. -/
theorem displayed_server_time_monotone_witness :
    GetDisplayedServerTime scenarioState 0 ≤
      GetDisplayedServerTime scenarioState 1 :=
  displayed_server_time_monotone scenarioState 0 1 (by norm_num)

/-- C9: on a short write (`socket.write` accepts fewer bytes than the
message size) `Write` performs exactly one write attempt, logs an error,
flushes, and returns normally (it is a total function with no error
channel); the flush happens for every write result and no second write
attempt (retry) ever occurs. -/
theorem write_short_write_logs_and_flushes :
    (∀ (messageSize : ℕ) (writeResult : ℤ),
      writeResult < (messageSize : ℤ) →
      Write messageSize writeResult =
        [WriteEffect.socketWrite messageSize, WriteEffect.logError,
         WriteEffect.socketFlush]) ∧
    (∀ (messageSize : ℕ) (writeResult : ℤ),
      (Write messageSize writeResult).count
        (WriteEffect.socketWrite messageSize) = 1) ∧
    (∀ (messageSize : ℕ) (writeResult : ℤ),
      WriteEffect.socketFlush ∈ Write messageSize writeResult) := by
  refine ⟨?_, ?_, ?_⟩
  · intro m r h
    have hne : r ≠ (m : ℤ) := ne_of_lt h
    simp [Write, hne]
  · intro m r
    unfold Write
    split <;> simp [List.count_cons]
  · intro m r
    unfold Write
    split <;> simp

/-- C9, witness: a 5-byte message of which the socket accepts only 3
bytes produces exactly the effect sequence write, log-error, flush. -/
theorem write_short_write_logs_and_flushes_witness :
    Write 5 3 =
      [WriteEffect.socketWrite 5, WriteEffect.logError,
       WriteEffect.socketFlush] :=
  write_short_write_logs_and_flushes.1 5 3 (by norm_num)

/-- A push into a window that respects the capacity keeps respecting it. -/
theorem pushSample_length_le {cap : ℕ} (hcap : 1 ≤ cap) (w : List ℚ) (x : ℚ)
    (h : w.length ≤ cap) : (pushSample cap w x).length ≤ cap := by
  by_cases hlt : w.length < cap
  · simp only [pushSample, if_pos hlt, List.length_append, List.length_singleton]
    omega
  · simp only [pushSample, if_neg hlt, List.length_append, List.length_drop,
      List.length_singleton]
    omega

/-- A push into a window within capacity keeps the suffix of the extended
window that fits the capacity. -/
theorem foldl_pushSample_eq_drop {cap : ℕ} (hcap : 1 ≤ cap) :
    ∀ (xs w : List ℚ), w.length ≤ cap →
      xs.foldl (pushSample cap) w =
        (w ++ xs).drop (w.length + xs.length - cap) := by
  intro xs
  induction xs with
  | nil =>
    intro w h
    have h0 : w.length - cap = 0 := Nat.sub_eq_zero_of_le h
    simp [h0]
  | cons x xs ih =>
    intro w h
    rw [List.foldl_cons]
    by_cases hlt : w.length < cap
    · have hp : pushSample cap w x = w ++ [x] := by
        simp [pushSample, hlt]
      have hl : (w ++ [x]).length ≤ cap := by
        simp only [List.length_append, List.length_singleton]
        omega
      have hidx : (w ++ [x]).length + xs.length - cap =
          w.length + (x :: xs).length - cap := by
        simp
        omega
      rw [hp, ih (w ++ [x]) hl, hidx, List.append_assoc, List.singleton_append]
    · have hEq : w.length = cap := by omega
      have hp : pushSample cap w x = w.drop 1 ++ [x] := by
        simp [pushSample, hlt]
      have hl : (w.drop 1 ++ [x]).length ≤ cap := by
        simp only [List.length_append, List.length_drop, List.length_singleton]
        omega
      rw [hp, ih _ hl, List.append_assoc, List.singleton_append]
      have h1 : (w.drop 1 ++ [x]).length + xs.length - cap = xs.length := by
        simp only [List.length_append, List.length_drop, List.length_singleton]
        omega
      have h2 : w.length + (x :: xs).length - cap = xs.length + 1 := by
        simp only [List.length_cons]
        omega
      rw [h1, h2, List.drop_append_eq_append_drop, List.drop_append_eq_append_drop,
        List.drop_drop]
      have h3 : xs.length - (w.drop 1).length = xs.length + 1 - w.length := by
        simp only [List.length_drop]
        omega
      have h4 : xs.length + 1 = 1 + xs.length := by omega
      rw [h3, h4]

/-- C7: for every capacity `cap ≥ 1`, the sample window built by the
spec-modelled ring-buffer push never exceeds `cap`; and after `cap + 1`
insertions the window is exactly the last `cap` inserted samples, so the
oldest original sample no longer contributes to the mean computation. -/
theorem sample_window_bounded_and_evicts_oldest :
    (∀ (cap : ℕ) (xs : List ℚ), 1 ≤ cap →
      (windowAfter cap xs).length ≤ cap) ∧
    (∀ (cap : ℕ) (xs : List ℚ), 1 ≤ cap → xs.length = cap + 1 →
      windowAfter cap xs = xs.drop 1 ∧
      listMean (windowAfter cap xs) = listMean (xs.drop 1)) := by
  have hmain : ∀ (cap : ℕ), 1 ≤ cap → ∀ xs : List ℚ,
      windowAfter cap xs = xs.drop (xs.length - cap) := by
    intro cap hcap xs
    unfold windowAfter
    rw [foldl_pushSample_eq_drop hcap xs [] (by simp)]
    simp
  constructor
  · intro cap xs hcap
    rw [hmain cap hcap xs]
    simp only [List.length_drop]
    omega
  · intro cap xs hcap hlen
    have h := hmain cap hcap xs
    rw [hlen] at h
    have h1 : cap + 1 - cap = 1 := by omega
    rw [h1] at h
    exact ⟨h, by rw [h]⟩

/-- C7, witness: capacity 2, three insertions — the window holds only the
last two samples, and its length is within capacity. -/
theorem sample_window_bounded_and_evicts_oldest_witness :
    (windowAfter 2 [1, 2, 3]).length ≤ 2 ∧
    windowAfter 2 [1, 2, 3] = List.drop 1 [(1 : ℚ), 2, 3] :=
  ⟨sample_window_bounded_and_evicts_oldest.1 2 [1, 2, 3] (by norm_num),
   (sample_window_bounded_and_evicts_oldest.2 2 [1, 2, 3] (by norm_num)
     (by rfl)).1⟩

/-- When the matching outstanding record is found, the handler keeps
exactly the records with larger sequence number. -/
theorem handlePing_eq_filter {sent : List (ℕ × ℚ)} {k : ℕ} {rt : ℚ}
    {q : ℕ × ℚ} (h : sent.find? (fun p => p.1 == k) = some q) :
    HandlePingResponse sent k rt =
      (sent.filter (fun p => k < p.1), some (rt - q.2)) := by
  unfold HandlePingResponse
  rw [h]

/-- C5: if some outstanding record matches the responded sequence number
`k`, processing the response removes every outstanding record with
sequence number ≤ `k` and keeps every record with sequence number > `k`. -/
theorem ping_response_evicts_cumulatively :
    ∀ (sent : List (ℕ × ℚ)) (k : ℕ) (receiveTime : ℚ),
      (∃ q ∈ sent, q.1 = k) →
      ∀ p ∈ sent,
        (p.1 ≤ k → p ∉ (HandlePingResponse sent k receiveTime).1) ∧
        (k < p.1 → p ∈ (HandlePingResponse sent k receiveTime).1) := by
  intro sent k rt hex p hp
  have hsome : (sent.find? (fun p => p.1 == k)).isSome := by
    rw [List.find?_isSome]
    obtain ⟨q, hq, hqk⟩ := hex
    exact ⟨q, hq, by simp [hqk]⟩
  obtain ⟨q, hq⟩ := Option.isSome_iff_exists.mp hsome
  rw [handlePing_eq_filter hq]
  constructor
  · intro hle hmem
    rw [List.mem_filter] at hmem
    have h2 := hmem.2
    simp only [decide_eq_true_eq] at h2
    omega
  · intro hlt
    rw [List.mem_filter]
    exact ⟨hp, by simp [hlt]⟩

/-- C5, witness: outstanding records 1, 2, 3; response to 2 removes
record 1 and keeps record 3. -/
theorem ping_response_evicts_cumulatively_witness :
    ((1, (0 : ℚ)) ∉
      (HandlePingResponse [(1, 0), (2, 1/2), (3, 1)] 2 2).1) ∧
    ((3, (1 : ℚ)) ∈
      (HandlePingResponse [(1, 0), (2, 1/2), (3, 1)] 2 2).1) :=
  ⟨(ping_response_evicts_cumulatively [(1, 0), (2, 1/2), (3, 1)] 2 2
      ⟨(2, 1/2), by simp, rfl⟩ (1, 0) (by simp)).1 (by norm_num),
   (ping_response_evicts_cumulatively [(1, 0), (2, 1/2), (3, 1)] 2 2
      ⟨(2, 1/2), by simp, rfl⟩ (3, 1) (by simp)).2 (by norm_num)⟩

/-- Once the connection is lost, further ticks change nothing and emit
nothing. -/
theorem runTicks_of_lost {timeout : ℚ} {s : SchedState}
    (h : s.connectionToServerLost = true) :
    ∀ ticks : List ℚ, runTicks timeout s ticks = (s, 0) := by
  intro ticks
  induction ticks with
  | nil => rfl
  | cons t rest ih =>
    simp [runTicks, pingTick, h, ih]

/-- C6: the `connectionToServerLost` flag never transitions back from
true to false over any tick sequence; the `ConnectionLost` event is
emitted at most once over any tick sequence; and from a live state, if
some tick exceeds the timeout since the last ping response, the flag
becomes true and the event is emitted exactly once even if further ticks
occur. -/
theorem connection_lost_monotone_and_once :
    (∀ (timeout : ℚ) (s : SchedState) (ticks : List ℚ),
      s.connectionToServerLost = true →
      (runTicks timeout s ticks).1.connectionToServerLost = true) ∧
    (∀ (timeout : ℚ) (s : SchedState) (ticks : List ℚ),
      (runTicks timeout s ticks).2 ≤ 1) ∧
    (∀ (timeout : ℚ) (s : SchedState) (ticks : List ℚ),
      s.connectionToServerLost = false →
      (∃ t ∈ ticks, t - s.lastPingResponseTime > timeout) →
      (runTicks timeout s ticks).1.connectionToServerLost = true ∧
      (runTicks timeout s ticks).2 = 1) := by
  refine ⟨?_, ?_, ?_⟩
  · intro timeout s ticks h
    rw [runTicks_of_lost h ticks]
    exact h
  · intro timeout s ticks
    induction ticks generalizing s with
    | nil => simp [runTicks]
    | cons t rest ih =>
      by_cases hc : s.connectionToServerLost = false ∧
          t - s.lastPingResponseTime > timeout
      · simp only [runTicks, pingTick, if_pos hc]
        rw [runTicks_of_lost rfl rest]
        simp
      · simp only [runTicks, pingTick, if_neg hc]
        simpa using ih s
  · intro timeout s ticks
    induction ticks generalizing s with
    | nil =>
      intro _ hex
      obtain ⟨t, ht, _⟩ := hex
      simp at ht
    | cons t rest ih =>
      intro hfalse hex
      by_cases htime : t - s.lastPingResponseTime > timeout
      · have hc : s.connectionToServerLost = false ∧
            t - s.lastPingResponseTime > timeout := ⟨hfalse, htime⟩
        simp only [runTicks, pingTick, if_pos hc]
        rw [runTicks_of_lost rfl rest]
        simp
      · obtain ⟨t', ht', htgt⟩ := hex
        rcases List.mem_cons.mp ht' with h1 | h2
        · subst h1
          exact absurd htgt htime
        · have hc : ¬(s.connectionToServerLost = false ∧
              t - s.lastPingResponseTime > timeout) := fun h => htime h.2
          simp only [runTicks, pingTick, if_neg hc]
          simpa using ih s hfalse ⟨t', h2, htgt⟩

/-- C6, witness: timeout 5 s, last response at 0, ticks at 1 s, 6 s, 7 s:
the flag becomes true and exactly one `ConnectionLost` is emitted. -/
theorem connection_lost_monotone_and_once_witness :
    (runTicks 5 ⟨false, 0⟩ [1, 6, 7]).1.connectionToServerLost = true ∧
    (runTicks 5 ⟨false, 0⟩ [1, 6, 7]).2 = 1 :=
  connection_lost_monotone_and_once.2.2 5 ⟨false, 0⟩ [1, 6, 7] rfl
    ⟨6, by norm_num, by norm_num⟩

/-- When the buffer has no complete message at its front, draining leaves
it untouched and raises no event. -/
theorem drainBuffer_none {buf : List ℕ} (h : stepParse buf = none) :
    drainBuffer buf = ([], buf) := by
  rw [drainBuffer]
  split
  · rfl
  · rename_i er heq
    rw [h] at heq
    exact Option.noConfusion heq

/-- When one message can be extracted, draining raises its event first
and continues on the remainder. -/
theorem drainBuffer_some {buf : List ℕ} {er : MsgEvent × List ℕ}
    (h : stepParse buf = some er) :
    drainBuffer buf =
      (er.1 :: (drainBuffer er.2).1, (drainBuffer er.2).2) := by
  rw [drainBuffer]
  split
  · rename_i heq
    rw [h] at heq
    exact Option.noConfusion heq
  · rename_i er2 heq
    rw [h] at heq
    cases heq
    rfl

/-- Extracting a complete message from the front of the buffer is stable
under appending further bytes at the back. -/
theorem stepParse_append {buf : List ℕ} {er : MsgEvent × List ℕ}
    (h : stepParse buf = some er) (extra : List ℕ) :
    stepParse (buf ++ extra) = some (er.1, er.2 ++ extra) := by
  rcases buf with _ | ⟨b0, _ | ⟨b1, _ | ⟨b2, _ | ⟨b3, rest⟩⟩⟩⟩ <;>
    simp only [stepParse] at h <;>
    try exact Option.noConfusion h
  by_cases hlen : rest.length < b2 * 256 + b3
  · rw [if_pos hlen] at h
    exact Option.noConfusion h
  · rw [if_neg hlen] at h
    cases h
    simp only [List.cons_append, stepParse]
    have hle : ¬ ((rest ++ extra).length < b2 * 256 + b3) := by
      simp only [List.length_append]
      omega
    rw [if_neg hle]
    have h1 : (rest ++ extra).take (b2 * 256 + b3) =
        rest.take (b2 * 256 + b3) :=
      List.take_append_of_le_length (by omega)
    have h2 : (rest ++ extra).drop (b2 * 256 + b3) =
        rest.drop (b2 * 256 + b3) ++ extra :=
      List.drop_append_of_le_length (by omega)
    rw [h1, h2]

/-- The buffer left over after draining holds no complete message. -/
theorem stepParse_drain_final : ∀ buf : List ℕ,
    stepParse (drainBuffer buf).2 = none := by
  intro buf
  induction buf using drainBuffer.induct with
  | case1 buf h =>
    rw [drainBuffer_none h]
    exact h
  | case2 buf er h ih =>
    rw [drainBuffer_some h]
    exact ih

/-- Draining a buffer extended by newly arrived bytes yields the events
of the old buffer followed by the events obtained from the leftover plus
the new bytes — the key confluence property behind chunking
independence. -/
theorem drainBuffer_append : ∀ (buf extra : List ℕ),
    drainBuffer (buf ++ extra) =
      ((drainBuffer buf).1 ++
         (drainBuffer ((drainBuffer buf).2 ++ extra)).1,
       (drainBuffer ((drainBuffer buf).2 ++ extra)).2) := by
  intro buf
  induction buf using drainBuffer.induct with
  | case1 buf h =>
    intro extra
    rw [drainBuffer_none h]
    simp
  | case2 buf er h ih =>
    intro extra
    rw [drainBuffer_some h, drainBuffer_some (stepParse_append h extra),
      ih extra]
    simp [drainBuffer_some h]

/-- Feeding chunks one at a time from a quiescent buffer is the same as
draining the concatenation of all the chunks at once. -/
theorem feedChunks_eq_drain : ∀ (chunks : List (List ℕ)) (buf : List ℕ),
    stepParse buf = none →
    feedChunks chunks buf =
      ((drainBuffer (buf ++ chunks.flatten)).1,
       (drainBuffer (buf ++ chunks.flatten)).2) := by
  intro chunks
  induction chunks with
  | nil =>
    intro buf h
    simp only [feedChunks, List.flatten_nil, List.append_nil]
    rw [drainBuffer_none h]
  | cons c cs ih =>
    intro buf h
    simp only [feedChunks]
    rw [ih _ (stepParse_drain_final (buf ++ c))]
    rw [List.flatten_cons, ← List.append_assoc,
      drainBuffer_append (buf ++ c) cs.flatten]

/-- Draining a well-formed encoding of a message sequence raises exactly
one event per message, with the correct type, length and payload, and
consumes the whole buffer. -/
theorem drainBuffer_encode : ∀ ms : List Msg,
    drainBuffer (encodeMsgs ms) = (ms.map toEvent, []) := by
  intro ms
  induction ms with
  | nil =>
    rw [encodeMsgs, drainBuffer_none (show stepParse [] = none from rfl)]
    rfl
  | cons m ms ih =>
    rw [encodeMsgs]
    have hstep : stepParse (encodeMsg m ++ encodeMsgs ms) =
        some (toEvent m, encodeMsgs ms) := by
      simp only [encodeMsg, List.cons_append, List.nil_append, stepParse]
      have hL : m.payload.length / 256 * 256 + m.payload.length % 256 =
          m.payload.length := by omega
      have hT : m.msgType / 256 * 256 + m.msgType % 256 = m.msgType := by
        omega
      have hlen : ¬ ((m.payload ++ encodeMsgs ms).length <
          m.payload.length / 256 * 256 + m.payload.length % 256) := by
        simp only [List.length_append]
        omega
      rw [if_neg hlen, hL, hT, List.take_left, List.drop_left]
      rfl
    rw [drainBuffer_some hstep, ih]
    rfl

/-- C4: feeding the framer any chunking of a byte stream yields the same
events and the same leftover buffer as feeding the whole stream at once;
and when the stream is the encoding of `N` complete length-prefixed
messages, exactly the `N` corresponding message-available events are
raised — with the correct type, length and payload — and the buffer is
fully consumed. -/
theorem framer_chunking_independent :
    (∀ (cs1 cs2 : List (List ℕ)), cs1.flatten = cs2.flatten →
      feedChunks cs1 [] = feedChunks cs2 []) ∧
    (∀ (chunks : List (List ℕ)) (ms : List Msg),
      (∀ m ∈ ms, ValidMsg m) →
      chunks.flatten = encodeMsgs ms →
      (feedChunks chunks []).1 = ms.map toEvent ∧
      (feedChunks chunks []).2 = []) := by
  constructor
  · intro cs1 cs2 h
    rw [feedChunks_eq_drain cs1 [] rfl, feedChunks_eq_drain cs2 [] rfl, h]
  · intro chunks ms _hvalid h
    rw [feedChunks_eq_drain chunks [] rfl]
    simp only [List.nil_append]
    rw [h, drainBuffer_encode ms]
    exact ⟨rfl, rfl⟩

/-- C4, witness: the 6-byte encoding of one message (type 7, payload
`[10, 20]`) fed as three chunks raises exactly one correct event, the
same as feeding it in one chunk. -/
theorem framer_chunking_independent_witness :
    feedChunks [[0, 7, 0], [2, 10], [20]] [] =
      feedChunks [[0, 7, 0, 2, 10, 20]] [] ∧
    (feedChunks [[0, 7, 0], [2, 10], [20]] []).1 =
      List.map toEvent [⟨7, [10, 20]⟩] ∧
    (feedChunks [[0, 7, 0], [2, 10], [20]] []).2 = [] :=
  ⟨framer_chunking_independent.1 [[0, 7, 0], [2, 10], [20]]
      [[0, 7, 0, 2, 10, 20]] rfl,
   framer_chunking_independent.2 [[0, 7, 0], [2, 10], [20]]
      [⟨7, [10, 20]⟩] (by norm_num [ValidMsg]) rfl⟩

/-- The frame value is never negative, because of the `std::max(0, ·)`. -/
theorem animFrame_nonneg (serverTime last : ℚ) :
    0 ≤ animFrame serverTime last :=
  le_max_left 0 _

/-- Truncation toward zero of a value below 1 is at most 0. -/
theorem truncToInt_nonpos {q : ℚ} (h : q < 1) : truncToInt q ≤ 0 := by
  unfold truncToInt
  split
  · rename_i hq
    have h0 : (0 : ℤ) ≤ ⌊-q⌋ := Int.le_floor.mpr (by push_cast; linarith)
    omega
  · rename_i hq
    have h1 : ⌊q⌋ < 1 := Int.floor_lt.mpr (by push_cast; linarith)
    omega

/-- If truncation toward zero reaches 1, the value is at least 1. -/
theorem le_of_one_le_truncToInt {q : ℚ} (h : 1 ≤ truncToInt q) : 1 ≤ q := by
  unfold truncToInt at h
  split at h
  · rename_i hq
    exfalso
    have h0 : (0 : ℤ) ≤ ⌊-q⌋ := Int.le_floor.mpr (by push_cast; linarith)
    omega
  · have h2 := Int.le_floor.mp h
    push_cast at h2
    linarith

/-- Once `lastAnimationStartTime` has caught up with `serverTime`, the
computed frame is 0. -/
theorem animFrame_self (st : ℚ) : animFrame st st = 0 := by
  unfold animFrame
  have h1 : framesPerSecond * (st - st) + 1/2 = 1/2 := by
    unfold framesPerSecond
    ring
  rw [h1]
  have h2 : truncToInt (1/2 : ℚ) = 0 := by
    unfold truncToInt
    rw [if_neg (by norm_num)]
    exact Int.floor_eq_zero_iff.mpr ⟨by norm_num, by norm_num⟩
  rw [h2]
  simp

/-- C10: whenever `framesPerDirection ≥ 1` (i.e. the sprite has at least
`kNumFacingDirections` frames), the animation-advance loop of
`ClientUnit::Render` terminates after finitely many iterations with
`0 ≤ frame < framesPerDirection`; and the precondition is required: for
`framesPerDirection = 0` the loop guard never becomes true and the loop
runs forever (no fuel suffices). -/
theorem render_animation_loop_terminates :
    (∀ (framesPerDirection : ℕ) (serverTime last : ℚ),
      1 ≤ framesPerDirection →
      ∃ (fuel : ℕ) (r : ℚ × ℤ),
        animLoop fuel framesPerDirection serverTime last = some r ∧
        0 ≤ r.2 ∧ r.2 < (framesPerDirection : ℤ)) ∧
    (∀ (fuel : ℕ) (serverTime last : ℚ),
      animLoop fuel 0 serverTime last = none) := by
  constructor
  · have main : ∀ (n fpd : ℕ) (st last : ℚ), 1 ≤ fpd →
        (⌈framesPerSecond * (st - last)⌉).toNat ≤ n →
        ∃ (fuel : ℕ) (r : ℚ × ℤ),
          animLoop fuel fpd st last = some r ∧
          0 ≤ r.2 ∧ r.2 < (fpd : ℤ) := by
      intro n
      induction n with
      | zero =>
        intro fpd st last hfpd hm
        have h1 : ⌈framesPerSecond * (st - last)⌉ ≤ 0 := by omega
        have hd : framesPerSecond * (st - last) ≤ 0 := by
          have h2 := Int.ceil_le.mp h1
          push_cast at h2
          linarith
        have ht : truncToInt (framesPerSecond * (st - last) + 1/2) ≤ 0 :=
          truncToInt_nonpos (by linarith)
        have hframe : animFrame st last < (fpd : ℤ) := by
          have h3 : animFrame st last ≤ 0 := max_le le_rfl ht
          have h4 : (1 : ℤ) ≤ (fpd : ℤ) := by exact_mod_cast hfpd
          omega
        exact ⟨1, (last, animFrame st last), by simp [animLoop, hframe],
          animFrame_nonneg st last, hframe⟩
      | succ n ih =>
        intro fpd st last hfpd hm
        by_cases hbreak : animFrame st last < (fpd : ℤ)
        · exact ⟨1, (last, animFrame st last), by simp [animLoop, hbreak],
            animFrame_nonneg st last, hbreak⟩
        · push_neg at hbreak
          have hfpdZ : (1 : ℤ) ≤ (fpd : ℤ) := by exact_mod_cast hfpd
          have htr : 1 ≤ truncToInt (framesPerSecond * (st - last) + 1/2) := by
            have h5 := hbreak
            unfold animFrame at h5
            omega
          have hq : (1 : ℚ) ≤ framesPerSecond * (st - last) + 1/2 :=
            le_of_one_le_truncToInt htr
          by_cases hcap : st ≤ last + (fpd : ℚ) / framesPerSecond
          · refine ⟨2, (st, 0), ?_, le_rfl, by omega⟩
            have hadv : animAdvance fpd st last = st := by
              unfold animAdvance
              exact min_eq_left hcap
            simp only [animLoop, if_neg (not_lt.mpr hbreak), hadv]
            have h0 : animFrame st st < (fpd : ℤ) := by
              rw [animFrame_self]
              omega
            rw [if_pos h0, animFrame_self]
          · push_neg at hcap
            have hadv : animAdvance fpd st last =
                last + (fpd : ℚ) / framesPerSecond := by
              unfold animAdvance
              exact min_eq_right (le_of_lt hcap)
            have hmeas :
                (⌈framesPerSecond *
                  (st - (last + (fpd : ℚ) / framesPerSecond))⌉).toNat ≤ n := by
              have hrw : framesPerSecond *
                  (st - (last + (fpd : ℚ) / framesPerSecond)) =
                  framesPerSecond * (st - last) - ((fpd : ℤ) : ℚ) := by
                unfold framesPerSecond
                push_cast
                field_simp
                ring
              rw [hrw, Int.ceil_sub_int]
              have hge1 : 1 ≤ ⌈framesPerSecond * (st - last)⌉ := by
                have h5 : (0 : ℚ) < framesPerSecond * (st - last) := by
                  linarith
                have h6 : (0 : ℤ) < ⌈framesPerSecond * (st - last)⌉ := by
                  exact_mod_cast Int.ceil_pos.mpr h5
                omega
              omega
            obtain ⟨fuel, r, hr, h0, hlt⟩ :=
              ih fpd st (last + (fpd : ℚ) / framesPerSecond) hfpd hmeas
            refine ⟨fuel + 1, r, ?_, h0, hlt⟩
            simp only [animLoop, if_neg (not_lt.mpr hbreak), hadv]
            exact hr
    intro fpd st last hfpd
    exact main (⌈framesPerSecond * (st - last)⌉).toNat fpd st last hfpd le_rfl
  · intro fuel
    induction fuel with
    | zero =>
      intro st last
      rfl
    | succ fuel ih =>
      intro st last
      have h : ¬ (animFrame st last < ((0 : ℕ) : ℤ)) := by
        push_cast
        exact not_lt.mpr (animFrame_nonneg st last)
      simp only [animLoop, if_neg h]
      exact ih st _

/-- C10, witness: with one frame per direction, server time 0 and
animation start time 0, the loop terminates with a frame in bounds. -/
theorem render_animation_loop_terminates_witness :
    1 ≤ 1 ∧
    ∃ (fuel : ℕ) (r : ℚ × ℤ),
      animLoop fuel 1 0 0 = some r ∧ 0 ≤ r.2 ∧ r.2 < ((1 : ℕ) : ℤ) :=
  ⟨le_rfl, render_animation_loop_terminates.1 1 0 0 le_rfl⟩

end FreeAge
